import Mathlib

/-!
Verification development for `temperature_exporter` (src/src/main.rs), an
EnOcean-to-Prometheus temperature bridge.

Shallow embedding notes:
* `Address` (a 4-byte EnOcean sender id from the external `enocean` crate) is
  modelled as `ℕ`; its text rendering and parsing are modelled from the spec
  (canonical hex of the 4 bytes) since the crate is outside this repository.
* `Temperature` is `f64` in the source.  Every temperature the program
  computes is `40 - round(byte*80/255)/2` with `byte ≤ 255`: the products and
  the final half-integer are exactly representable in `f64` and the quotient
  `byte*80/255` is never close enough to a rounding boundary for the one
  `f64` division's rounding to move `round` across it, so the `f64`
  evaluation is exact and `ℚ` models it faithfully.
* `Timestamp` (`SystemTime`) is modelled as `ℤ` nanoseconds since the Unix
  epoch; `duration_since(UNIX_EPOCH)` fails exactly on negative values, and
  `as_millis` is truncating division by 10⁶.
* The `HashMap` is modelled as an association list with unique keys
  (`keysNodup`); `entry(..).or_insert(..)` replaces the (unique) binding in
  place or appends a fresh one.
* Rust panics are modelled as `Option` (`none` = panic) and `Result` as
  `Except`.
-/

abbrev Address := ℕ

abbrev DeviceName := String

abbrev Temperature := ℚ

abbrev Timestamp := ℤ

/-- Rust `f64::round`: round half away from zero. -/
def roundHalfAway (x : ℚ) : ℤ :=
  if 0 ≤ x then ⌊x + 1 / 2⌋ else -⌊-x + 1 / 2⌋

/-- The codec `fn decode_temperature(byte: u8) -> f64` (main.rs:120-122):
`40f64 - (byte as f64 * 80f64 / 255f64).round() / 2f64`.  Exact over `ℚ` for
`byte ≤ 255`, see the header note. -/
def decode_temperature (byte : ℕ) : Temperature :=
  40 - (roundHalfAway ((byte : ℚ) * 80 / 255) : ℚ) / 2

/-- A stored observation: `(Temperature, Timestamp)` in the source. -/
structure Reading where
  temp : Temperature
  ts : Timestamp
deriving DecidableEq

/-- One value of the device map: `(Option<DeviceName>, Option<(Temperature, Timestamp)>)`. -/
structure DeviceRecord where
  name : Option DeviceName
  reading : Option Reading
deriving DecidableEq

/-- The store `struct TemperatureStore` with its `devices: HashMap<Address, ...>`,
the map as an association list with unique keys. -/
structure TemperatureStore where
  devices : List (Address × DeviceRecord)
deriving DecidableEq

/-- The keys of the association list (the `HashMap` key set, with order). -/
def keys (l : List (Address × DeviceRecord)) : List Address :=
  l.map Prod.fst

/-- The unique-keys invariant the Rust `HashMap` maintains structurally. -/
def keysNodup (l : List (Address × DeviceRecord)) : Prop :=
  (keys l).Nodup

instance (l : List (Address × DeviceRecord)) : Decidable (keysNodup l) := by
  unfold keysNodup; infer_instance

/-- Lookup in the device map: the record bound to `a`, if any. -/
def findRecord (l : List (Address × DeviceRecord)) (a : Address) : Option DeviceRecord :=
  match l with
  | [] => none
  | (b, rec) :: rest => if b = a then some rec else findRecord rest a

/-- The body of insert (main.rs:36-40):
`self.devices.entry(address).or_insert((None,None)).1.replace((temperature, timestamp))`
replaces the reading of the existing binding, or appends a fresh record with
no name. -/
def insertRecord (l : List (Address × DeviceRecord)) (a : Address)
    (t : Temperature) (ts : Timestamp) : List (Address × DeviceRecord) :=
  match l with
  | [] => [(a, ⟨none, some ⟨t, ts⟩⟩)]
  | (b, rec) :: rest =>
    if b = a then (b, { rec with reading := some ⟨t, ts⟩ }) :: rest
    else (b, rec) :: insertRecord rest a t ts

/-- Operation `TemperatureStore::insert` (main.rs:36-40). -/
def TemperatureStore.insert (s : TemperatureStore) (address : Address)
    (temperature : Temperature) (timestamp : Timestamp) : TemperatureStore :=
  ⟨insertRecord s.devices address temperature timestamp⟩

/-- A hex digit character (lowercase), for the address rendering. -/
def hexChar (n : ℕ) : Char :=
  if n < 10 then Char.ofNat (48 + n) else Char.ofNat (97 + (n - 10))

/-- Modelled from the spec: the `Display` of the `enocean` crate's `Address`
(`address.to_string()`, main.rs:49) is not in this repository; the spec fixes
it as the "canonical hex representation of the 4-byte address", modelled as 8
lowercase hex digits. -/
def addrToString (a : Address) : String :=
  String.mk ((List.range 8).map (fun i => hexChar (a / 16 ^ (7 - i) % 16)))

/-- The value of one hex digit character, if it is one. -/
def hexVal (c : Char) : Option ℕ :=
  if 48 ≤ c.toNat ∧ c.toNat ≤ 57 then some (c.toNat - 48)
  else if 97 ≤ c.toNat ∧ c.toNat ≤ 102 then some (c.toNat - 97 + 10)
  else if 65 ≤ c.toNat ∧ c.toNat ≤ 70 then some (c.toNat - 65 + 10)
  else none

/-- Modelled from the spec: the `FromStr` of the `enocean` crate's `Address`
(`.parse()?`, main.rs:30) is not in this repository; the spec fixes the text
form as the canonical hex of the 4 bytes, so parsing accepts exactly 8 hex
digits. -/
def parseAddress (s : String) : Option Address :=
  if s.length = 8 then
    s.data.foldl (fun acc c => acc.bind (fun n => (hexVal c).map (fun v => n * 16 + v)))
      (some 0)
  else none

/-- Rendering of an `f64` temperature by Rust's `Display` (`{temp}` in the
format strings, main.rs:52-54).  The program only ever stores half-integer
temperatures (outputs of `decode_temperature`), on which the shortest-decimal
`f64` rendering is the exact decimal below; other rationals get a fallback
spelling that the program can never produce. -/
def fmtTemp (q : Temperature) : String :=
  let sign := if q < 0 then "-" else ""
  if q.den = 1 then sign ++ toString q.num.natAbs
  else if q.den = 2 then sign ++ toString (q.num.natAbs / 2) ++ ".5"
  else sign ++ toString q.num.natAbs ++ "/" ++ toString q.den

/-- The conversion `time.duration_since(UNIX_EPOCH).expect("Time went backwards").as_millis()`
(main.rs:48): fails (panic) exactly when the timestamp precedes the epoch,
otherwise the elapsed milliseconds, truncated. -/
def millisSinceEpoch (ts : Timestamp) : Option ℕ :=
  if ts < 0 then none else some (ts.toNat / 1000000)

/-- The `# HELP` comment line (main.rs:43; the source file's literal contains
the bytes rendered `Â°C`). -/
def helpLine : String :=
  "# HELP enocean_temperature_celsius Temperature reported by an EnOcean sensor, in Â°C\n"

/-- The `# TYPE` comment line (main.rs:44). -/
def typeLine : String :=
  "# TYPE enocean_temperature_celsius gauge\n"

/-- The two comment lines every scrape starts with. -/
def scrapeHeader : String :=
  helpLine ++ typeLine

/-- One exposition line (main.rs:50-55): with the `name` label when a device
name is set, without it otherwise. -/
def lineText (address : Address) (name : Option DeviceName) (temp : Temperature)
    (time : ℕ) : String :=
  match name with
  | some n =>
    "enocean_temperature_celsius\x7baddress=\"" ++ addrToString address ++
      "\", name=\"" ++ n ++ "\"\x7d " ++ fmtTemp temp ++ " " ++ toString time ++ "\n"
  | none =>
    "enocean_temperature_celsius\x7baddress=\"" ++ addrToString address ++
      "\"\x7d " ++ fmtTemp temp ++ " " ++ toString time ++ "\n"

/-- The loop of `TemperatureStore::scrape` (main.rs:46-57): records without a
reading contribute nothing; a reading before the epoch panics (`none`). -/
def scrapeBody : List (Address × DeviceRecord) → Option String
  | [] => some ""
  | (a, rec) :: rest =>
    match rec.reading with
    | none => scrapeBody rest
    | some r => do
      let ms ← millisSinceEpoch r.ts
      let body ← scrapeBody rest
      pure (lineText a rec.name r.temp ms ++ body)

/-- Operation `TemperatureStore::scrape` (main.rs:42-60); `none` models the
"Time went backwards" panic. -/
def TemperatureStore.scrape (s : TemperatureStore) : Option String :=
  (scrapeBody s.devices).map (fun b => scrapeHeader ++ b)

/-- The exposition lines of a device list, each tagged with the address it
renders; `none` models the panic.  Specification-side view of `scrapeBody`. -/
def taggedLines : List (Address × DeviceRecord) → Option (List (Address × String))
  | [] => some []
  | (a, rec) :: rest =>
    match rec.reading with
    | none => taggedLines rest
    | some r => do
      let ms ← millisSinceEpoch r.ts
      let tl ← taggedLines rest
      pure ((a, lineText a rec.name r.temp ms) :: tl)

/-- Concatenation of rendered lines. -/
def joinLines : List String → String
  | [] => ""
  | s :: rest => s ++ joinLines rest

/-- A record whose reading (if any) does not make `scrape` panic. -/
def recOk (rec : DeviceRecord) : Bool :=
  match rec.reading with
  | none => true
  | some r => decide (0 ≤ r.ts)

/-- No stored reading precedes the Unix epoch. -/
def storeOk (s : TemperatureStore) : Bool :=
  s.devices.all (fun p => recOk p.2)

/-- A YAML value as far as `with_devices` inspects it: a string or anything
else (`yaml_rust::Yaml`; `as_str` is `some` exactly on strings). -/
inductive Yaml where
  | str (s : String)
  | nonstr
deriving DecidableEq

/-- Accessor `Yaml::as_str`: `some` exactly on strings. -/
def Yaml.as_str : Yaml → Option String
  | .str s => some s
  | .nonstr => none

/-- The `HashMap::insert` used while building the configured store
(main.rs:31): rebind the key if present, else append. -/
def configInsert (l : List (Address × DeviceRecord)) (a : Address)
    (rec : DeviceRecord) : List (Address × DeviceRecord) :=
  match l with
  | [] => [(a, rec)]
  | (b, old) :: rest =>
    if b = a then (b, rec) :: rest
    else (b, old) :: configInsert rest a rec

/-- The loop of `TemperatureStore::with_devices` (main.rs:28-32): for each
config entry the name must be a string, then the address must be a string
that parses; the first failure aborts with that error. -/
def with_devicesAux : List (Yaml × Yaml) → List (Address × DeviceRecord) →
    Except String (List (Address × DeviceRecord))
  | [], acc => .ok acc
  | (address, name) :: rest, acc =>
    match name.as_str with
    | none => .error "device name was not string"
    | some n =>
      match address.as_str with
      | none => .error "device address was not a string"
      | some astr =>
        match parseAddress astr with
        | none => .error "invalid device address"
        | some a => with_devicesAux rest (configInsert acc a ⟨some n, none⟩)

/-- Operation `TemperatureStore::with_devices` (main.rs:26-34). -/
def TemperatureStore.with_devices (config_devices : List (Yaml × Yaml)) :
    Except String TemperatureStore :=
  (with_devicesAux config_devices []).map (fun d => ⟨d⟩)

/-- One config entry that `with_devices` accepts: string value, and a string
key that parses as an address. -/
def entryOk (e : Yaml × Yaml) : Bool :=
  match e.2.as_str with
  | none => false
  | some _ =>
    match e.1.as_str with
    | none => false
    | some s => (parseAddress s).isSome

/-- The telegram type discriminator (`enocean::enocean::Rorg`), as far as the
ingestion loop inspects it: `Bs4` or any other variant. -/
inductive Rorg where
  | Bs4
  | Other (code : ℕ)
deriving DecidableEq

/-- The fields of an ERP1 radio telegram the ingestion loop reads. -/
structure Erp1 where
  choice : Rorg
  user_data : List ℕ
  sender_id : Address
deriving DecidableEq

/-- A decoded packet (`enocean::packet::Packet`), as far as the ingestion
loop inspects it: the `RadioErp1` variant or any other. -/
inductive Packet where
  | RadioErp1 (erp : Erp1)
  | NonRadio
deriving DecidableEq

/-- The store effect of one iteration of `serial_driver_thread` (main.rs:101-118)
after a frame was read and decoded successfully: a `RadioErp1` packet whose
`choice` is `Rorg::Bs4` inserts the temperature decoded from `user_data[2]`
under the sender id at the current time; every other packet does nothing.
(`Bs4` telegrams carry 4 user-data bytes, so the index-2 access is in
bounds; `getD` supplies the never-used default.) -/
def processPacket (s : TemperatureStore) (pkt : Packet) (now : Timestamp) :
    TemperatureStore :=
  match pkt with
  | .RadioErp1 erp =>
    if erp.choice = Rorg.Bs4 then
      s.insert erp.sender_id (decode_temperature (erp.user_data.getD 2 0)) now
    else s
  | .NonRadio => s

/-- C1: the temperature codec maps byte 0 to 40.0 °C, byte 255 to 0.0 °C and
byte 128 to 20.0 °C — the value of the half-degree-quantized formula
`40 - round(byte*80/255)/2` that the implementation chose — and not to 19.92,
the plain-linear alternative's value. -/
theorem decode_temperature_landmarks :
    decode_temperature 0 = 40 ∧ decode_temperature 255 = 0 ∧
      decode_temperature 128 = 20 ∧ decode_temperature 128 ≠ 1992 / 100 := by
  have h255 : decode_temperature 255 = 0 := by
    unfold decode_temperature roundHalfAway
    rw [if_pos (by norm_num)]
    have h : ⌊((255 : ℕ) * 80 / 255 + 1 / 2 : ℚ)⌋ = 80 := by
      rw [Int.floor_eq_iff]
      norm_num
    rw [h]; norm_num
  have h128 : decode_temperature 128 = 20 := by
    unfold decode_temperature roundHalfAway
    rw [if_pos (by norm_num)]
    have h : ⌊((128 : ℕ) * 80 / 255 + 1 / 2 : ℚ)⌋ = 40 := by
      rw [Int.floor_eq_iff]
      norm_num
    rw [h]; norm_num
  refine ⟨?_, h255, h128, ?_⟩
  · unfold decode_temperature roundHalfAway
    norm_num
  · rw [h128]; norm_num

theorem taggedLines_cons_none {a : Address} {rec : DeviceRecord}
    {rest : List (Address × DeviceRecord)} (h : rec.reading = none) :
    taggedLines ((a, rec) :: rest) = taggedLines rest := by
  simp [taggedLines, h]

theorem taggedLines_cons_some {a : Address} {rec : DeviceRecord} {r : Reading}
    {rest : List (Address × DeviceRecord)} (h : rec.reading = some r)
    (hts : 0 ≤ r.ts) :
    taggedLines ((a, rec) :: rest) =
      (taggedLines rest).map
        (fun tl => (a, lineText a rec.name r.temp (r.ts.toNat / 1000000)) :: tl) := by
  have hms : millisSinceEpoch r.ts = some (r.ts.toNat / 1000000) := by
    simp [millisSinceEpoch, not_lt.mpr hts]
  cases htl : taggedLines rest <;>
    simp [taggedLines, h, hms, htl, Option.bind]

theorem taggedLines_cons_bad {a : Address} {rec : DeviceRecord} {r : Reading}
    {rest : List (Address × DeviceRecord)} (h : rec.reading = some r)
    (hts : r.ts < 0) :
    taggedLines ((a, rec) :: rest) = none := by
  simp [taggedLines, h, millisSinceEpoch, hts, Option.bind]

theorem scrapeBody_eq (l : List (Address × DeviceRecord)) :
    scrapeBody l = (taggedLines l).map (fun tls => joinLines (tls.map Prod.snd)) := by
  induction l with
  | nil => simp [scrapeBody, taggedLines, joinLines]
  | cons hd rest ih =>
    obtain ⟨a, rec⟩ := hd
    cases h : rec.reading with
    | none => simp [scrapeBody, taggedLines, h, ih]
    | some r =>
      cases hms : millisSinceEpoch r.ts with
      | none => simp [scrapeBody, taggedLines, h, hms, Option.bind]
      | some ms =>
        cases htl : taggedLines rest with
        | none => simp [scrapeBody, taggedLines, h, hms, htl, ih, Option.bind]
        | some tls => simp [scrapeBody, taggedLines, h, hms, htl, ih, Option.bind, joinLines]

theorem taggedLines_eq_none_iff (l : List (Address × DeviceRecord)) :
    taggedLines l = none ↔ ∃ p ∈ l, ∃ r, p.2.reading = some r ∧ r.ts < 0 := by
  induction l with
  | nil => simp [taggedLines]
  | cons hd rest ih =>
    obtain ⟨a, rec⟩ := hd
    cases h : rec.reading with
    | none =>
      rw [taggedLines_cons_none h, ih]
      constructor
      · rintro ⟨p, hp, r, hr, hts⟩; exact ⟨p, .tail _ hp, r, hr, hts⟩
      · rintro ⟨p, hp, r, hr, hts⟩
        cases hp with
        | head => simp_all
        | tail _ hp => exact ⟨p, hp, r, hr, hts⟩
    | some r =>
      by_cases hts : r.ts < 0
      · rw [taggedLines_cons_bad h hts]
        simp only [true_iff]
        exact ⟨(a, rec), .head _, r, h, hts⟩
      · push_neg at hts
        rw [taggedLines_cons_some h hts]
        cases htl : taggedLines rest with
        | none =>
          simp only [Option.map_none', true_iff]
          obtain ⟨p, hp, r', hr', hts'⟩ := ih.mp htl
          exact ⟨p, .tail _ hp, r', hr', hts'⟩
        | some tls =>
          simp only [Option.map_some', reduceCtorEq, false_iff]
          rintro ⟨p, hp, r', hr', hts'⟩
          cases hp with
          | head =>
            simp only at hr'
            rw [h] at hr'
            injection hr' with e
            rw [← e] at hts'
            exact absurd hts' (not_lt.mpr hts)
          | tail _ hp => exact absurd (ih.mpr ⟨p, hp, r', hr', hts'⟩) (by simp [htl])

theorem keys_cons (b : Address) (brec : DeviceRecord)
    (rest : List (Address × DeviceRecord)) :
    keys ((b, brec) :: rest) = b :: keys rest := by
  simp [keys]

theorem keysNodup_cons {b : Address} {brec : DeviceRecord}
    {rest : List (Address × DeviceRecord)} :
    keysNodup ((b, brec) :: rest) ↔ b ∉ keys rest ∧ keysNodup rest := by
  simp [keysNodup, keys_cons b brec rest, List.nodup_cons]

theorem taggedLines_filter_not_mem {l : List (Address × DeviceRecord)}
    {tls : List (Address × String)} {a : Address}
    (ha : a ∉ keys l) (h : taggedLines l = some tls) :
    tls.filter (fun p => p.1 == a) = [] := by
  induction l generalizing tls with
  | nil =>
    simp only [taggedLines] at h
    injection h with h
    rw [← h]
    rfl
  | cons hd rest ih =>
    obtain ⟨b, brec⟩ := hd
    rw [keys_cons] at ha
    have hb : b ≠ a := fun e => ha (by simp [e])
    have ha' : a ∉ keys rest := fun e => ha (by simp [e])
    cases hr : brec.reading with
    | none =>
      rw [taggedLines_cons_none hr] at h
      exact ih ha' h
    | some r =>
      by_cases hts : r.ts < 0
      · rw [taggedLines_cons_bad hr hts] at h; cases h
      · push_neg at hts
        rw [taggedLines_cons_some hr hts] at h
        cases htl : taggedLines rest with
        | none => rw [htl] at h; cases h
        | some tl =>
          rw [htl] at h
          injection h with h
          rw [← h]
          simp only [List.filter_cons]
          have : (b == a) = false := by simp [hb]
          simp only [this, Bool.false_eq_true, if_false]
          exact ih ha' htl

theorem taggedLines_filter_of_none {l : List (Address × DeviceRecord)}
    {tls : List (Address × String)} {a : Address} {rec : DeviceRecord}
    (hnd : keysNodup l) (hmem : (a, rec) ∈ l) (hr : rec.reading = none)
    (h : taggedLines l = some tls) :
    tls.filter (fun p => p.1 == a) = [] := by
  induction l generalizing tls with
  | nil => cases hmem
  | cons hd rest ih =>
    obtain ⟨b, brec⟩ := hd
    obtain ⟨hb, hnd'⟩ := keysNodup_cons.mp hnd
    cases hmem with
    | head =>
      rw [taggedLines_cons_none hr] at h
      exact taggedLines_filter_not_mem hb h
    | tail _ hmem =>
      have hba : b ≠ a := by
        rintro rfl
        exact hb (by simpa [keys] using List.mem_map_of_mem Prod.fst hmem)
      cases hbr : brec.reading with
      | none =>
        rw [taggedLines_cons_none hbr] at h
        exact ih hnd' hmem h
      | some r =>
        by_cases hts : r.ts < 0
        · rw [taggedLines_cons_bad hbr hts] at h; cases h
        · push_neg at hts
          rw [taggedLines_cons_some hbr hts] at h
          cases htl : taggedLines rest with
          | none => rw [htl] at h; cases h
          | some tl =>
            rw [htl] at h
            injection h with h
            rw [← h]
            simp only [List.filter_cons]
            have hbeq : (b == a) = false := by simp [hba]
            simp only [hbeq, Bool.false_eq_true, if_false]
            exact ih hnd' hmem htl

theorem taggedLines_filter_of_some {l : List (Address × DeviceRecord)}
    {tls : List (Address × String)} {a : Address} {rec : DeviceRecord} {r : Reading}
    (hnd : keysNodup l) (hmem : (a, rec) ∈ l) (hr : rec.reading = some r)
    (h : taggedLines l = some tls) :
    tls.filter (fun p => p.1 == a) =
      [(a, lineText a rec.name r.temp (r.ts.toNat / 1000000))] := by
  induction l generalizing tls with
  | nil => cases hmem
  | cons hd rest ih =>
    obtain ⟨b, brec⟩ := hd
    obtain ⟨hb, hnd'⟩ := keysNodup_cons.mp hnd
    cases hmem with
    | head =>
      by_cases hts : r.ts < 0
      · rw [taggedLines_cons_bad hr hts] at h; cases h
      · push_neg at hts
        rw [taggedLines_cons_some hr hts] at h
        cases htl : taggedLines rest with
        | none => rw [htl] at h; cases h
        | some tl =>
          rw [htl] at h
          injection h with h
          rw [← h]
          simp only [List.filter_cons]
          rw [taggedLines_filter_not_mem hb htl]
          simp
    | tail _ hmem =>
      have hba : b ≠ a := by
        rintro rfl
        exact hb (by simpa [keys] using List.mem_map_of_mem Prod.fst hmem)
      cases hbr : brec.reading with
      | none =>
        rw [taggedLines_cons_none hbr] at h
        exact ih hnd' hmem h
      | some r' =>
        by_cases hts : r'.ts < 0
        · rw [taggedLines_cons_bad hbr hts] at h; cases h
        · push_neg at hts
          rw [taggedLines_cons_some hbr hts] at h
          cases htl : taggedLines rest with
          | none => rw [htl] at h; cases h
          | some tl =>
            rw [htl] at h
            injection h with h
            rw [← h]
            simp only [List.filter_cons]
            have hbeq : (b == a) = false := by simp [hba]
            simp only [hbeq, Bool.false_eq_true, if_false]
            exact ih hnd' hmem htl

theorem findRecord_eq_none_iff {l : List (Address × DeviceRecord)} {a : Address} :
    findRecord l a = none ↔ a ∉ keys l := by
  induction l with
  | nil => simp [findRecord, keys]
  | cons hd rest ih =>
    obtain ⟨b, brec⟩ := hd
    rw [keys_cons]
    by_cases hba : b = a
    · subst hba
      simp [findRecord]
    · simp only [findRecord, if_neg hba, ih, List.mem_cons]
      constructor
      · rintro hn (e | e)
        · exact hba e.symm
        · exact hn e
      · intro hn e
        exact hn (Or.inr e)

theorem insertRecord_not_mem {l : List (Address × DeviceRecord)} {a : Address}
    {t : Temperature} {ts : Timestamp} (ha : a ∉ keys l) :
    insertRecord l a t ts = l ++ [(a, ⟨none, some ⟨t, ts⟩⟩)] := by
  induction l with
  | nil => rfl
  | cons hd rest ih =>
    obtain ⟨b, brec⟩ := hd
    rw [keys_cons] at ha
    have hba : b ≠ a := fun e => ha (by simp [e])
    have ha' : a ∉ keys rest := fun e => ha (by simp [e])
    simp only [insertRecord, if_neg hba, List.cons_append, List.cons.injEq, true_and]
    exact ih ha'

theorem keys_insertRecord_mem {l : List (Address × DeviceRecord)} {a : Address}
    {t : Temperature} {ts : Timestamp} (ha : a ∈ keys l) :
    keys (insertRecord l a t ts) = keys l := by
  induction l with
  | nil => cases ha
  | cons hd rest ih =>
    obtain ⟨b, brec⟩ := hd
    by_cases hba : b = a
    · simp [insertRecord, hba, keys_cons]
    · rw [keys_cons] at ha
      have ha' : a ∈ keys rest := by
        rcases List.mem_cons.mp ha with e | e
        · exact absurd e.symm hba
        · exact e
      simp only [insertRecord, if_neg hba, keys_cons, ih ha']

theorem keysNodup_insertRecord {l : List (Address × DeviceRecord)} {a : Address}
    {t : Temperature} {ts : Timestamp} (h : keysNodup l) :
    keysNodup (insertRecord l a t ts) := by
  by_cases ha : a ∈ keys l
  · unfold keysNodup
    rw [keys_insertRecord_mem ha]
    exact h
  · rw [insertRecord_not_mem ha]
    unfold keysNodup at h ⊢
    unfold keys at h ⊢
    rw [List.map_append]
    simp only [List.map_cons, List.map_nil]
    rw [List.nodup_append]
    refine ⟨h, List.nodup_singleton a, ?_⟩
    intro x hx hy
    simp only [List.mem_singleton] at hy
    subst hy
    exact ha hx

theorem findRecord_insertRecord_none {l : List (Address × DeviceRecord)} {a : Address}
    {t : Temperature} {ts : Timestamp} (h : findRecord l a = none) :
    findRecord (insertRecord l a t ts) a = some ⟨none, some ⟨t, ts⟩⟩ := by
  induction l with
  | nil => simp [insertRecord, findRecord]
  | cons hd rest ih =>
    obtain ⟨b, brec⟩ := hd
    by_cases hba : b = a
    · simp [findRecord, hba] at h
    · simp only [findRecord, if_neg hba] at h
      simp only [insertRecord, if_neg hba, findRecord, if_neg hba]
      exact ih h

theorem findRecord_insertRecord_some {l : List (Address × DeviceRecord)} {a : Address}
    {rec : DeviceRecord} {t : Temperature} {ts : Timestamp}
    (h : findRecord l a = some rec) :
    findRecord (insertRecord l a t ts) a = some ⟨rec.name, some ⟨t, ts⟩⟩ := by
  induction l with
  | nil => cases h
  | cons hd rest ih =>
    obtain ⟨b, brec⟩ := hd
    by_cases hba : b = a
    · simp only [findRecord, if_pos hba] at h
      injection h with h
      simp [insertRecord, hba, findRecord, ← h]
    · simp only [findRecord, if_neg hba] at h
      simp only [insertRecord, if_neg hba, findRecord, if_neg hba]
      exact ih h

theorem mem_of_findRecord {l : List (Address × DeviceRecord)} {a : Address}
    {rec : DeviceRecord} (h : findRecord l a = some rec) : (a, rec) ∈ l := by
  induction l with
  | nil => cases h
  | cons hd rest ih =>
    obtain ⟨b, brec⟩ := hd
    by_cases hba : b = a
    · simp only [findRecord, if_pos hba] at h
      injection h with h
      subst hba; subst h
      exact .head _
    · simp only [findRecord, if_neg hba] at h
      exact .tail _ (ih h)

theorem findRecord_of_mem {l : List (Address × DeviceRecord)} {a : Address}
    {rec : DeviceRecord} (hnd : keysNodup l) (h : (a, rec) ∈ l) :
    findRecord l a = some rec := by
  induction l with
  | nil => cases h
  | cons hd rest ih =>
    obtain ⟨b, brec⟩ := hd
    obtain ⟨hb, hnd'⟩ := keysNodup_cons.mp hnd
    cases h with
    | head => simp [findRecord]
    | tail _ h =>
      have hba : b ≠ a := by
        rintro rfl
        exact hb (by simpa [keys] using List.mem_map_of_mem Prod.fst h)
      simp only [findRecord, if_neg hba]
      exact ih hnd' h

theorem mem_insertRecord {l : List (Address × DeviceRecord)} {a b : Address}
    {rec : DeviceRecord} {t : Temperature} {ts : Timestamp} (hnd : keysNodup l)
    (h : (b, rec) ∈ insertRecord l a t ts) :
    (b ≠ a ∧ (b, rec) ∈ l) ∨ (b = a ∧ rec.reading = some ⟨t, ts⟩) := by
  by_cases hba : b = a
  · subst hba
    right
    refine ⟨rfl, ?_⟩
    have hfr := findRecord_of_mem (keysNodup_insertRecord hnd) h
    cases hl : findRecord l b with
    | none => rw [findRecord_insertRecord_none hl] at hfr; injection hfr with e; rw [← e]
    | some old => rw [findRecord_insertRecord_some hl] at hfr; injection hfr with e; rw [← e]
  · left
    refine ⟨hba, ?_⟩
    induction l with
    | nil =>
      simp only [insertRecord] at h
      rcases List.mem_singleton.mp h with e
      cases e; exact absurd rfl hba
    | cons hd rest ih =>
      obtain ⟨c, crec⟩ := hd
      obtain ⟨hc, hnd'⟩ := keysNodup_cons.mp hnd
      by_cases hca : c = a
      · subst hca
        simp only [insertRecord, if_pos rfl] at h
        cases h with
        | head => exact absurd rfl hba
        | tail _ h => exact .tail _ h
      · simp only [insertRecord, if_neg hca] at h
        cases h with
        | head => exact .head _
        | tail _ h => exact .tail _ (ih hnd' h)

theorem insertRecord_names_of_mem {l : List (Address × DeviceRecord)} {a : Address}
    {t : Temperature} {ts : Timestamp} (ha : a ∈ keys l) :
    (insertRecord l a t ts).map (fun p => (p.1, p.2.name)) =
      l.map (fun p => (p.1, p.2.name)) := by
  induction l with
  | nil => cases ha
  | cons hd rest ih =>
    obtain ⟨b, brec⟩ := hd
    by_cases hba : b = a
    · simp [insertRecord, hba]
    · rw [keys_cons] at ha
      have ha' : a ∈ keys rest := by
        rcases List.mem_cons.mp ha with e | e
        · exact absurd e.symm hba
        · exact e
      simp only [insertRecord, if_neg hba, List.map_cons, ih ha']

theorem recOk_of_some {rec : DeviceRecord} {r : Reading} (h : rec.reading = some r)
    (hts : 0 ≤ r.ts) : recOk rec = true := by
  simp [recOk, h, hts]

theorem ts_nonneg_of_recOk {rec : DeviceRecord} {r : Reading}
    (h : recOk rec = true) (hr : rec.reading = some r) : 0 ≤ r.ts := by
  rw [recOk, hr] at h
  exact of_decide_eq_true h

theorem taggedLines_isSome_of_ok {l : List (Address × DeviceRecord)}
    (h : ∀ p ∈ l, recOk p.2 = true) : ∃ tls, taggedLines l = some tls := by
  cases htl : taggedLines l with
  | none =>
    obtain ⟨p, hp, r, hr, hts⟩ := (taggedLines_eq_none_iff l).mp htl
    exact absurd (ts_nonneg_of_recOk (h p hp) hr) (not_le.mpr hts)
  | some tls => exact ⟨tls, rfl⟩

theorem storeOk_iff {s : TemperatureStore} :
    storeOk s = true ↔ ∀ p ∈ s.devices, recOk p.2 = true := by
  simp [storeOk, List.all_eq_true]

theorem scrape_eq_of_taggedLines {s : TemperatureStore} {tls : List (Address × String)}
    (h : taggedLines s.devices = some tls) :
    s.scrape = some (scrapeHeader ++ joinLines (tls.map Prod.snd)) := by
  unfold TemperatureStore.scrape
  rw [scrapeBody_eq, h]
  rfl

theorem all_recOk_insertRecord {l : List (Address × DeviceRecord)} {a : Address}
    {t : Temperature} {ts : Timestamp} (hnd : keysNodup l)
    (h : ∀ p ∈ l, p.1 ≠ a → recOk p.2 = true) (hts : 0 ≤ ts) :
    ∀ p ∈ insertRecord l a t ts, recOk p.2 = true := by
  rintro ⟨b, rec⟩ hp
  rcases mem_insertRecord hnd hp with ⟨hba, hmem⟩ | ⟨hba, hread⟩
  · exact h _ hmem hba
  · exact recOk_of_some hread hts

theorem mem_configInsert {l : List (Address × DeviceRecord)} {a : Address}
    {rec : DeviceRecord} {p : Address × DeviceRecord}
    (h : p ∈ configInsert l a rec) : p ∈ l ∨ p = (a, rec) := by
  induction l with
  | nil =>
    simp only [configInsert] at h
    exact Or.inr (List.mem_singleton.mp h)
  | cons hd rest ih =>
    obtain ⟨b, brec⟩ := hd
    by_cases hba : b = a
    · subst hba
      simp only [configInsert, if_pos rfl] at h
      cases h with
      | head => exact Or.inr rfl
      | tail _ h => exact Or.inl (.tail _ h)
    · simp only [configInsert, if_neg hba] at h
      cases h with
      | head => exact Or.inl (.head _)
      | tail _ h =>
        rcases ih h with h' | h'
        · exact Or.inl (.tail _ h')
        · exact Or.inr h'

theorem keys_mem_configInsert {l : List (Address × DeviceRecord)} {a : Address}
    {rec : DeviceRecord} {b : Address} :
    b ∈ keys (configInsert l a rec) ↔ b ∈ keys l ∨ b = a := by
  induction l with
  | nil => simp [configInsert, keys]
  | cons hd rest ih =>
    obtain ⟨c, crec⟩ := hd
    by_cases hca : c = a
    · subst hca
      simp only [configInsert, if_pos rfl, keys_cons]
      constructor
      · rintro h
        rcases List.mem_cons.mp h with e | e
        · exact Or.inr e
        · exact Or.inl (List.mem_cons.mpr (Or.inr e))
      · rintro (h | h)
        · rcases List.mem_cons.mp h with e | e
          · exact List.mem_cons.mpr (Or.inl e)
          · exact List.mem_cons.mpr (Or.inr e)
        · exact List.mem_cons.mpr (Or.inl h)
    · simp only [configInsert, if_neg hca, keys_cons, List.mem_cons, ih]
      tauto

theorem keysNodup_configInsert {l : List (Address × DeviceRecord)} {a : Address}
    {rec : DeviceRecord} (h : keysNodup l) : keysNodup (configInsert l a rec) := by
  induction l with
  | nil => simp [configInsert, keysNodup, keys]
  | cons hd rest ih =>
    obtain ⟨c, crec⟩ := hd
    obtain ⟨hc, hnd'⟩ := keysNodup_cons.mp h
    by_cases hca : c = a
    · subst hca
      simp only [configInsert, if_pos rfl]
      exact keysNodup_cons.mpr ⟨hc, hnd'⟩
    · simp only [configInsert, if_neg hca]
      refine keysNodup_cons.mpr ⟨?_, ih hnd'⟩
      intro hmem
      rcases keys_mem_configInsert.mp hmem with h' | h'
      · exact hc h'
      · exact hca h'

theorem with_devicesAux_ok_all {l : List (Yaml × Yaml)}
    {acc d : List (Address × DeviceRecord)}
    (h : with_devicesAux l acc = .ok d) : l.all entryOk = true := by
  induction l generalizing acc with
  | nil => rfl
  | cons e rest ih =>
    obtain ⟨ya, yn⟩ := e
    cases hn : yn.as_str with
    | none => simp [with_devicesAux, hn] at h
    | some n =>
      cases hs : ya.as_str with
      | none => simp [with_devicesAux, hn, hs] at h
      | some astr =>
        cases hp : parseAddress astr with
        | none => simp [with_devicesAux, hn, hs, hp] at h
        | some a =>
          simp only [with_devicesAux, hn, hs, hp] at h
          rw [List.all_cons, Bool.and_eq_true]
          refine ⟨?_, ih h⟩
          simp [entryOk, hn, hs, hp]

theorem with_devicesAux_some {l : List (Yaml × Yaml)} (h : l.all entryOk = true) :
    ∀ acc, ∃ d, with_devicesAux l acc = .ok d := by
  induction l with
  | nil => exact fun acc => ⟨acc, rfl⟩
  | cons e rest ih =>
    intro acc
    obtain ⟨ya, yn⟩ := e
    rw [List.all_cons, Bool.and_eq_true] at h
    obtain ⟨he, hrest⟩ := h
    cases hn : yn.as_str with
    | none => simp [entryOk, hn] at he
    | some n =>
      cases hs : ya.as_str with
      | none => simp [entryOk, hn, hs] at he
      | some astr =>
        cases hp : parseAddress astr with
        | none => simp [entryOk, hn, hs, hp] at he
        | some a =>
          simp only [with_devicesAux, hn, hs, hp]
          exact ih hrest _

theorem with_devicesAux_nodup {l : List (Yaml × Yaml)}
    {acc d : List (Address × DeviceRecord)}
    (h : with_devicesAux l acc = .ok d) (hacc : keysNodup acc) : keysNodup d := by
  induction l generalizing acc with
  | nil =>
    simp only [with_devicesAux] at h
    injection h with h
    rw [← h]; exact hacc
  | cons e rest ih =>
    obtain ⟨ya, yn⟩ := e
    cases hn : yn.as_str with
    | none => simp [with_devicesAux, hn] at h
    | some n =>
      cases hs : ya.as_str with
      | none => simp [with_devicesAux, hn, hs] at h
      | some astr =>
        cases hp : parseAddress astr with
        | none => simp [with_devicesAux, hn, hs, hp] at h
        | some a =>
          simp only [with_devicesAux, hn, hs, hp] at h
          exact ih h (keysNodup_configInsert hacc)

theorem with_devicesAux_mem {l : List (Yaml × Yaml)}
    {acc d : List (Address × DeviceRecord)}
    (h : with_devicesAux l acc = .ok d) :
    ∀ p ∈ d, p ∈ acc ∨ ∃ e ∈ l, ∃ s, e.1.as_str = some s ∧
      parseAddress s = some p.1 ∧ e.2.as_str = p.2.name ∧ p.2.reading = none := by
  induction l generalizing acc with
  | nil =>
    simp only [with_devicesAux] at h
    injection h with h
    rw [← h]
    exact fun p hp => Or.inl hp
  | cons e rest ih =>
    obtain ⟨ya, yn⟩ := e
    cases hn : yn.as_str with
    | none => simp [with_devicesAux, hn] at h
    | some n =>
      cases hs : ya.as_str with
      | none => simp [with_devicesAux, hn, hs] at h
      | some astr =>
        cases hp : parseAddress astr with
        | none => simp [with_devicesAux, hn, hs, hp] at h
        | some a =>
          simp only [with_devicesAux, hn, hs, hp] at h
          intro p hpd
          rcases ih h p hpd with hmem | ⟨e', he', s, h1, h2, h3, h4⟩
          · rcases mem_configInsert hmem with hmem' | rfl
            · exact Or.inl hmem'
            · exact Or.inr ⟨(ya, yn), .head _, astr, hs, hp, by simp [hn]⟩
          · exact Or.inr ⟨e', .tail _ he', s, h1, h2, h3, h4⟩

theorem with_devicesAux_keys {l : List (Yaml × Yaml)}
    {acc d : List (Address × DeviceRecord)}
    (h : with_devicesAux l acc = .ok d) :
    ∀ b, b ∈ keys d ↔ b ∈ keys acc ∨ ∃ e ∈ l, ∃ s, e.1.as_str = some s ∧
      parseAddress s = some b := by
  induction l generalizing acc with
  | nil =>
    simp only [with_devicesAux] at h
    injection h with h
    rw [← h]
    simp
  | cons e rest ih =>
    obtain ⟨ya, yn⟩ := e
    cases hn : yn.as_str with
    | none => simp [with_devicesAux, hn] at h
    | some n =>
      cases hs : ya.as_str with
      | none => simp [with_devicesAux, hn, hs] at h
      | some astr =>
        cases hp : parseAddress astr with
        | none => simp [with_devicesAux, hn, hs, hp] at h
        | some a =>
          simp only [with_devicesAux, hn, hs, hp] at h
          intro b
          rw [ih h b, keys_mem_configInsert]
          constructor
          · rintro ((hb | rfl) | ⟨e', he', s, h1, h2⟩)
            · exact Or.inl hb
            · exact Or.inr ⟨(ya, yn), .head _, astr, hs, hp⟩
            · exact Or.inr ⟨e', .tail _ he', s, h1, h2⟩
          · rintro (hb | ⟨e', he', s, h1, h2⟩)
            · exact Or.inl (Or.inl hb)
            · cases he' with
              | head =>
                rw [hs] at h1
                injection h1 with h1
                rw [← h1] at h2
                rw [hp] at h2
                injection h2 with h2
                exact Or.inl (Or.inr h2.symm)
              | tail _ he' => exact Or.inr ⟨e', he', s, h1, h2⟩

/-- C2: the second of two inserts for the same address wins unconditionally:
whatever `ts₁` and `ts₂` are (no timestamp comparison happens), the record
afterwards reads `(t₂, ts₂)`, and a scrape renders exactly one line for that
address, showing `t₂` — never both values. -/
theorem insert_insert_overwrites (s : TemperatureStore) (a : Address)
    (t₁ t₂ : Temperature) (ts₁ ts₂ : Timestamp)
    (hnd : keysNodup s.devices) (hok : storeOk s = true) (hts₂ : 0 ≤ ts₂) :
    ∃ rec, findRecord ((s.insert a t₁ ts₁).insert a t₂ ts₂).devices a = some rec ∧
      rec.reading = some ⟨t₂, ts₂⟩ ∧
      ∃ tls, taggedLines ((s.insert a t₁ ts₁).insert a t₂ ts₂).devices = some tls ∧
        ((s.insert a t₁ ts₁).insert a t₂ ts₂).scrape =
          some (scrapeHeader ++ joinLines (tls.map Prod.snd)) ∧
        tls.filter (fun p => p.1 == a) =
          [(a, lineText a rec.name t₂ (ts₂.toNat / 1000000))] := by
  set l₁ := insertRecord s.devices a t₁ ts₁
  have hnd₁ : keysNodup l₁ := keysNodup_insertRecord hnd
  have hnd₂ : keysNodup (insertRecord l₁ a t₂ ts₂) := keysNodup_insertRecord hnd₁
  have hfind : ∃ nm, findRecord (insertRecord l₁ a t₂ ts₂) a = some ⟨nm, some ⟨t₂, ts₂⟩⟩ := by
    cases h₁ : findRecord l₁ a with
    | none => exact ⟨none, findRecord_insertRecord_none h₁⟩
    | some old => exact ⟨old.name, findRecord_insertRecord_some h₁⟩
  obtain ⟨nm, hfind⟩ := hfind
  have hall : ∀ p ∈ insertRecord l₁ a t₂ ts₂, recOk p.2 = true := by
    refine all_recOk_insertRecord hnd₁ ?_ hts₂
    rintro ⟨b, rec⟩ hp hba
    rcases mem_insertRecord hnd hp with ⟨_, hmem⟩ | ⟨e, _⟩
    · exact storeOk_iff.mp hok _ hmem
    · exact absurd e hba
  obtain ⟨tls, htls⟩ := taggedLines_isSome_of_ok hall
  refine ⟨⟨nm, some ⟨t₂, ts₂⟩⟩, hfind, rfl, tls, htls,
    scrape_eq_of_taggedLines htls, ?_⟩
  exact @taggedLines_filter_of_some (insertRecord l₁ a t₂ ts₂) tls a
    ⟨nm, some ⟨t₂, ts₂⟩⟩ ⟨t₂, ts₂⟩ hnd₂ (mem_of_findRecord hfind) rfl htls

/-- C4: for an address whose record has a reading (and a panic-free store),
the scrape document contains exactly one exposition line for it: the metric
name, the `address` label always, the `name` label exactly when a device name
is set, the temperature value, and the timestamp as truncated integer
milliseconds since the Unix epoch (all of which constitute `lineText`). -/
theorem scrape_line_for_reading (s : TemperatureStore) (a : Address)
    (rec : DeviceRecord) (r : Reading) (hnd : keysNodup s.devices)
    (hok : storeOk s = true) (hmem : (a, rec) ∈ s.devices)
    (hr : rec.reading = some r) :
    ∃ tls, taggedLines s.devices = some tls ∧
      s.scrape = some (scrapeHeader ++ joinLines (tls.map Prod.snd)) ∧
      tls.filter (fun p => p.1 == a) =
        [(a, lineText a rec.name r.temp (r.ts.toNat / 1000000))] := by
  obtain ⟨tls, htls⟩ := taggedLines_isSome_of_ok (storeOk_iff.mp hok)
  exact ⟨tls, htls, scrape_eq_of_taggedLines htls,
    taggedLines_filter_of_some hnd hmem hr htls⟩

/-- C5: every (panic-free) scrape document starts with the `# HELP` line
followed by the `# TYPE ... gauge` line, and a record with no reading
contributes no line: no tagged line carries its address. -/
theorem scrape_header_and_skips (s : TemperatureStore) (hnd : keysNodup s.devices)
    (hok : storeOk s = true) :
    ∃ tls, taggedLines s.devices = some tls ∧
      s.scrape = some (helpLine ++ (typeLine ++ joinLines (tls.map Prod.snd))) ∧
      ∀ a rec, (a, rec) ∈ s.devices → rec.reading = none →
        tls.filter (fun p => p.1 == a) = [] := by
  obtain ⟨tls, htls⟩ := taggedLines_isSome_of_ok (storeOk_iff.mp hok)
  refine ⟨tls, htls, ?_, ?_⟩
  · rw [scrape_eq_of_taggedLines htls, scrapeHeader, String.append_assoc]
  · intro a rec hmem hr
    exact taggedLines_filter_of_none hnd hmem hr htls

/-- C6: inserting for an address the store does not know appends a record
with no device name and the given reading, and the scrape line it produces
carries the `address` label only (the nameless branch of `lineText`). -/
theorem insert_new_address (s : TemperatureStore) (a : Address) (t : Temperature)
    (ts : Timestamp) (hnd : keysNodup s.devices) (hok : storeOk s = true)
    (ha : a ∉ keys s.devices) (hts : 0 ≤ ts) :
    (s.insert a t ts).devices = s.devices ++ [(a, ⟨none, some ⟨t, ts⟩⟩)] ∧
    ∃ tls, taggedLines (s.insert a t ts).devices = some tls ∧
      (s.insert a t ts).scrape = some (scrapeHeader ++ joinLines (tls.map Prod.snd)) ∧
      tls.filter (fun p => p.1 == a) =
        [(a, lineText a none t (ts.toNat / 1000000))] := by
  have happ : (s.insert a t ts).devices = s.devices ++ [(a, ⟨none, some ⟨t, ts⟩⟩)] :=
    insertRecord_not_mem ha
  have hnd' : keysNodup (s.insert a t ts).devices := keysNodup_insertRecord hnd
  have hall : ∀ p ∈ (s.insert a t ts).devices, recOk p.2 = true := by
    refine all_recOk_insertRecord hnd ?_ hts
    rintro ⟨b, rec⟩ hp _
    exact storeOk_iff.mp hok _ hp
  obtain ⟨tls, htls⟩ := taggedLines_isSome_of_ok hall
  have hmem : (a, (⟨none, some ⟨t, ts⟩⟩ : DeviceRecord)) ∈ (s.insert a t ts).devices := by
    rw [happ]
    exact List.mem_append.mpr (Or.inr (.head _))
  refine ⟨happ, tls, htls, scrape_eq_of_taggedLines htls, ?_⟩
  exact @taggedLines_filter_of_some (s.insert a t ts).devices tls a
    ⟨none, some ⟨t, ts⟩⟩ ⟨t, ts⟩ hnd' hmem rfl htls

/-- C8: inserting for an already-known address changes only that record's
reading: the address-to-name association of the whole store is untouched
(names are assigned by `with_devices` at startup and never mutated). -/
theorem insert_preserves_names (s : TemperatureStore) (a : Address)
    (t : Temperature) (ts : Timestamp) (ha : a ∈ keys s.devices) :
    (s.insert a t ts).devices.map (fun p => (p.1, p.2.name)) =
      s.devices.map (fun p => (p.1, p.2.name)) ∧
    ∀ rec, findRecord s.devices a = some rec →
      findRecord (s.insert a t ts).devices a = some ⟨rec.name, some ⟨t, ts⟩⟩ := by
  exact ⟨insertRecord_names_of_mem ha,
    fun rec hrec => findRecord_insertRecord_some hrec⟩

/-- C9: `scrape` is partial: it panics (`none`, the `expect("Time went
backwards")`) exactly when some stored reading's timestamp precedes the Unix
epoch — a failure mode the spec does not mention. -/
theorem scrape_panics_iff (s : TemperatureStore) :
    s.scrape = none ↔ ∃ p ∈ s.devices, ∃ r, p.2.reading = some r ∧ r.ts < 0 := by
  rw [← taggedLines_eq_none_iff]
  unfold TemperatureStore.scrape
  rw [scrapeBody_eq]
  cases h : taggedLines s.devices <;> simp [h]

/-- C3: one ingestion iteration (after a successful read and decode) changes
the store exactly for `RadioErp1` packets with `Rorg::Bs4`: those perform the
one insert of the decoded `user_data[2]` temperature under the sender id at
the current time; every other packet leaves the store untouched, and no
error arises. -/
theorem serial_step_effect (s : TemperatureStore) (pkt : Packet) (now : Timestamp) :
    (∃ erp, pkt = Packet.RadioErp1 erp ∧ erp.choice = Rorg.Bs4 ∧
      processPacket s pkt now =
        s.insert erp.sender_id (decode_temperature (erp.user_data.getD 2 0)) now) ∨
    (processPacket s pkt now = s ∧
      ∀ erp, pkt = Packet.RadioErp1 erp → erp.choice ≠ Rorg.Bs4) := by
  cases pkt with
  | RadioErp1 erp =>
    by_cases h : erp.choice = Rorg.Bs4
    · exact Or.inl ⟨erp, rfl, h, by simp [processPacket, h]⟩
    · refine Or.inr ⟨by simp [processPacket, h], ?_⟩
      intro erp' e
      injection e with e
      rw [← e]
      exact h
  | NonRadio =>
    refine Or.inr ⟨rfl, ?_⟩
    intro erp e
    cases e

/-- C7: building the store from the `devices` config table succeeds exactly
when every value is a string and every key is a string parsing as an address
(else the first offending entry aborts with an error and no store exists);
on success there is exactly one record per configured address, each carrying
the configured name and no reading. -/
theorem with_devices_correct (l : List (Yaml × Yaml)) :
    ((∃ t, TemperatureStore.with_devices l = .ok t) ↔ l.all entryOk = true) ∧
    ∀ t, TemperatureStore.with_devices l = .ok t →
      keysNodup t.devices ∧
      (∀ p ∈ t.devices, p.2.reading = none ∧ p.2.name.isSome = true ∧
        ∃ e ∈ l, ∃ str, e.1.as_str = some str ∧ parseAddress str = some p.1 ∧
          e.2.as_str = p.2.name) ∧
      (∀ a, a ∈ keys t.devices ↔ ∃ e ∈ l, ∃ str, e.1.as_str = some str ∧
        parseAddress str = some a) := by
  constructor
  · constructor
    · rintro ⟨t, ht⟩
      unfold TemperatureStore.with_devices at ht
      cases he : with_devicesAux l [] with
      | error m => rw [he] at ht; simp [Except.map] at ht
      | ok d => exact with_devicesAux_ok_all he
    · intro hall
      obtain ⟨d, hd⟩ := with_devicesAux_some hall []
      refine ⟨⟨d⟩, ?_⟩
      unfold TemperatureStore.with_devices
      rw [hd]
      rfl
  · intro t ht
    unfold TemperatureStore.with_devices at ht
    cases he : with_devicesAux l [] with
    | error m => rw [he] at ht; simp [Except.map] at ht
    | ok d =>
      rw [he] at ht
      simp only [Except.map] at ht
      injection ht with ht
      have hall := with_devicesAux_ok_all he
      have hnodup : keysNodup d := with_devicesAux_nodup he (by simp [keysNodup, keys])
      refine ⟨by rw [← ht]; exact hnodup, ?_, ?_⟩
      · intro p hp
        rw [← ht] at hp
        rcases with_devicesAux_mem he p hp with hmem | ⟨e, hel, str, h1, h2, h3, h4⟩
        · cases hmem
        · have hok : entryOk e = true := List.all_eq_true.mp hall e hel
          have hsome : (e.2.as_str).isSome = true := by
            cases hn : e.2.as_str with
            | none => rw [entryOk, hn] at hok; cases hok
            | some n => rfl
          rw [h3] at hsome
          exact ⟨h4, hsome, e, hel, str, h1, h2, h3⟩
      · intro a
        rw [← ht]
        rw [with_devicesAux_keys he a]
        simp [keys]

/-- Witness for C2 at a concrete store: two inserts for address `0x0189a2b3`,
the second with an *earlier* timestamp, leave `(22, the earlier time)`. -/
theorem insert_insert_overwrites_witness :
    ∃ rec, findRecord (((TemperatureStore.mk [(25797299, ⟨some "Living Room", none⟩)]).insert
        25797299 (mkRat 43 2) 1700000000001000000).insert
        25797299 22 1700000000000000000).devices 25797299 = some rec ∧
      rec.reading = some ⟨22, 1700000000000000000⟩ ∧
      ∃ tls, taggedLines (((TemperatureStore.mk [(25797299, ⟨some "Living Room", none⟩)]).insert
          25797299 (mkRat 43 2) 1700000000001000000).insert
          25797299 22 1700000000000000000).devices = some tls ∧
        (((TemperatureStore.mk [(25797299, ⟨some "Living Room", none⟩)]).insert
          25797299 (mkRat 43 2) 1700000000001000000).insert
          25797299 22 1700000000000000000).scrape =
          some (scrapeHeader ++ joinLines (tls.map Prod.snd)) ∧
        tls.filter (fun p => p.1 == 25797299) =
          [(25797299, lineText 25797299 rec.name 22
            ((1700000000000000000 : ℤ).toNat / 1000000))] :=
  insert_insert_overwrites ⟨[(25797299, ⟨some "Living Room", none⟩)]⟩ 25797299
    (mkRat 43 2) 22 1700000000001000000 1700000000000000000
    (by decide) (by decide) (by decide)

/-- Witness for C4 at a concrete store: the configured device `"Living Room"`
with reading `21.5` at a known time gets exactly one line. -/
theorem scrape_line_for_reading_witness :
    ∃ tls, taggedLines (TemperatureStore.mk [(25797299,
        ⟨some "Living Room", some ⟨mkRat 43 2, 1700000000000000000⟩⟩)]).devices = some tls ∧
      (TemperatureStore.mk [(25797299,
        ⟨some "Living Room", some ⟨mkRat 43 2, 1700000000000000000⟩⟩)]).scrape =
        some (scrapeHeader ++ joinLines (tls.map Prod.snd)) ∧
      tls.filter (fun p => p.1 == 25797299) =
        [(25797299, lineText 25797299 (some "Living Room") (mkRat 43 2)
          ((1700000000000000000 : ℤ).toNat / 1000000))] :=
  scrape_line_for_reading
    ⟨[(25797299, ⟨some "Living Room", some ⟨mkRat 43 2, 1700000000000000000⟩⟩)]⟩
    25797299 ⟨some "Living Room", some ⟨mkRat 43 2, 1700000000000000000⟩⟩
    ⟨mkRat 43 2, 1700000000000000000⟩ (by decide) (by decide) (.head _) rfl

/-- Witness for C5 at a concrete store: a configured device that never
received a telegram yields the two header lines and no line of its own. -/
theorem scrape_header_and_skips_witness :
    ∃ tls, taggedLines (TemperatureStore.mk
        [(25797299, ⟨some "Bedroom", none⟩)]).devices = some tls ∧
      (TemperatureStore.mk [(25797299, ⟨some "Bedroom", none⟩)]).scrape =
        some (helpLine ++ (typeLine ++ joinLines (tls.map Prod.snd))) ∧
      ∀ a rec, (a, rec) ∈ (TemperatureStore.mk
          [(25797299, ⟨some "Bedroom", none⟩)]).devices → rec.reading = none →
        tls.filter (fun p => p.1 == a) = [] :=
  scrape_header_and_skips ⟨[(25797299, ⟨some "Bedroom", none⟩)]⟩
    (by decide) (by decide)

/-- Witness for C6 at a concrete store: an unconfigured address is
auto-created nameless, and its line carries only the `address` label. -/
theorem insert_new_address_witness :
    ((TemperatureStore.mk [(7, ⟨some "Kitchen", none⟩)]).insert
        25797299 (mkRat 43 2) 1700000000000000000).devices =
      [(7, ⟨some "Kitchen", none⟩)] ++
        [(25797299, ⟨none, some ⟨mkRat 43 2, 1700000000000000000⟩⟩)] ∧
    ∃ tls, taggedLines ((TemperatureStore.mk [(7, ⟨some "Kitchen", none⟩)]).insert
        25797299 (mkRat 43 2) 1700000000000000000).devices = some tls ∧
      ((TemperatureStore.mk [(7, ⟨some "Kitchen", none⟩)]).insert
        25797299 (mkRat 43 2) 1700000000000000000).scrape =
        some (scrapeHeader ++ joinLines (tls.map Prod.snd)) ∧
      tls.filter (fun p => p.1 == 25797299) =
        [(25797299, lineText 25797299 none (mkRat 43 2)
          ((1700000000000000000 : ℤ).toNat / 1000000))] :=
  insert_new_address ⟨[(7, ⟨some "Kitchen", none⟩)]⟩ 25797299
    (mkRat 43 2) 1700000000000000000 (by decide) (by decide) (by decide) (by decide)

/-- Witness for C8 at a concrete store: re-inserting for a known address
keeps its name `"Living Room"` while replacing the reading. -/
theorem insert_preserves_names_witness :
    ((TemperatureStore.mk [(25797299, ⟨some "Living Room", some ⟨21, 5⟩⟩)]).insert
        25797299 22 99).devices.map (fun p => (p.1, p.2.name)) =
      (TemperatureStore.mk [(25797299,
        ⟨some "Living Room", some ⟨21, 5⟩⟩)]).devices.map (fun p => (p.1, p.2.name)) ∧
    ∀ rec, findRecord (TemperatureStore.mk [(25797299,
        ⟨some "Living Room", some ⟨21, 5⟩⟩)]).devices 25797299 = some rec →
      findRecord ((TemperatureStore.mk [(25797299,
          ⟨some "Living Room", some ⟨21, 5⟩⟩)]).insert 25797299 22 99).devices
        25797299 = some ⟨rec.name, some ⟨22, 99⟩⟩ :=
  insert_preserves_names ⟨[(25797299, ⟨some "Living Room", some ⟨21, 5⟩⟩)]⟩
    25797299 22 99 (by decide)
